import Mathlib

/-!
Shallow embedding of the match-result aggregation and ranking engine of
`src/Api/getScores.py` (the aggregation loop over `matches`, lines 53-106,
and the ranking `sorted_teams`), together with theorems checking the
specification's claims about it.

Python dynamic values are modelled by `PyVal`, which captures exactly the
operations the script performs on the JSON fields it reads: truthiness
(`not winner`, `not finished`), conversion via `int(...)` (which may raise
`ValueError`/`TypeError`, modelled by `Option`), and `str(...)` rendering
inside the f-string diagnostics.
-/

/-- A Python/JSON value, as far as `getScores.py` inspects one: `None`, a
boolean, an integer, or a string. -/
inductive PyVal where
  | vnone : PyVal
  | vbool : Bool → PyVal
  | vint : Int → PyVal
  | vstr : String → PyVal
deriving DecidableEq

/-- Python truthiness: `None`, `False`, `0` and `""` are falsy. -/
def PyVal.truthy : PyVal → Bool
  | .vnone => false
  | .vbool b => b
  | .vint n => decide (n ≠ 0)
  | .vstr s => decide (s ≠ "")

/-- Value of a nonempty all-digit character list, `none` otherwise.
Helper for the string case of Python `int(...)`. -/
def digitsVal (cs : List Char) : Option Nat :=
  if cs.isEmpty then none
  else if cs.all (fun c => c.isDigit) then
    some (cs.foldl (fun a c => a * 10 + (c.toNat - 48)) 0)
  else none

/-- Strip leading and trailing whitespace from a character list, modelling
the whitespace tolerance of Python `int(...)` on strings. -/
def trimChars (cs : List Char) : List Char :=
  ((cs.dropWhile Char.isWhitespace).reverse.dropWhile Char.isWhitespace).reverse

/-- Python `int(s)` on a string: surrounding whitespace is ignored, then an
optional sign followed by a nonempty digit sequence; anything else raises
`ValueError`, modelled as `none`. -/
def parseIntStr (s : String) : Option Int :=
  match trimChars s.toList with
  | ('-') :: rest => (digitsVal rest).map (fun n => -(n : Int))
  | ('+') :: rest => (digitsVal rest).map (fun n => (n : Int))
  | cs => (digitsVal cs).map (fun n => (n : Int))

/-- Python `int(v)`: succeeds on booleans, integers and integer-shaped
strings; raises (`none`) on `None` and non-numeric strings. -/
def PyVal.toInt : PyVal → Option Int
  | .vnone => none
  | .vbool b => some (if b then 1 else 0)
  | .vint n => some n
  | .vstr s => parseIntStr s

/-- Python `str(v)`, as used when a value is interpolated into an f-string. -/
def PyVal.pystr : PyVal → String
  | .vnone => "None"
  | .vbool b => if b then "True" else "False"
  | .vint n => toString n
  | .vstr s => s

/-- One entry of `match2opponents`: the script only reads
`team.get("name", "Unknown")`, so only the (possibly absent) name is kept. -/
structure Opponent where
  name : Option String
deriving DecidableEq

/-- A raw match record as read by the aggregation loop.  Each field is
`none` when the corresponding key is absent from the JSON dict; the
defaults of the `match.get(...)` calls (lines 58-61) are applied by the
accessors below. -/
structure MatchRecord where
  match2id : Option PyVal
  match2opponents : Option (List Opponent)
  winner : Option PyVal
  finished : Option PyVal
deriving DecidableEq

/-- `match.get("match2id")` (line 58): default `None`. -/
def MatchRecord.matchIdVal (m : MatchRecord) : PyVal :=
  m.match2id.getD PyVal.vnone

/-- `match.get("match2opponents", [])` (line 59). -/
def MatchRecord.opponentsVal (m : MatchRecord) : List Opponent :=
  m.match2opponents.getD []

/-- `match.get("winner", "")` (line 60). -/
def MatchRecord.winnerVal (m : MatchRecord) : PyVal :=
  m.winner.getD (PyVal.vstr "")

/-- `match.get("finished", 0)` (line 61). -/
def MatchRecord.finishedVal (m : MatchRecord) : PyVal :=
  m.finished.getD (PyVal.vint 0)

/-- `team.get("name", "Unknown")` (lines 73, 82, 83). -/
def Opponent.resolvedName (o : Opponent) : String :=
  o.name.getD "Unknown"

/-- The mutable aggregation state of the script: the dicts `wins` and
`loses` (modelled as total functions that are `0` outside the registered
keys), the list `teams`, and the diagnostic lines printed so far. -/
structure AggState where
  wins : String → Nat
  loses : String → Nat
  teams : List String
  diags : List String

/-- Pointwise update of a tally function, modelling `d[k] = v`. -/
def updateFn (f : String → Nat) (k : String) (v : Nat) : String → Nat :=
  fun n => if n = k then v else f n

/-- Diagnostic of line 96:
`print(f"Unexpected winner value '{winner}' for match {match_id}")`. -/
def unexpectedWinnerMsg (matchId w : PyVal) : String :=
  "Unexpected winner value " ++ String.singleton (Char.ofNat 39) ++ w.pystr
    ++ String.singleton (Char.ofNat 39) ++ " for match " ++ matchId.pystr

/-- Diagnostic of line 99:
`print(f"Skipping match {match_id} due to invalid winner field: {winner}")`. -/
def invalidWinnerMsg (matchId w : PyVal) : String :=
  "Skipping match " ++ matchId.pystr
    ++ " due to invalid winner field: " ++ w.pystr

/-- Lines 72-77: register one opponent's name if it has not been seen,
initializing both of its counters to zero. -/
def registerTeam (s : AggState) (team : Opponent) : AggState :=
  let name := team.resolvedName
  if name ∈ s.teams then s
  else
    { s with
      teams := s.teams ++ [name]
      wins := updateFn s.wins name 0
      loses := updateFn s.loses name 0 }

/-- The body of the aggregation loop (lines 57-100) for one match record. -/
def processMatch (s : AggState) (m : MatchRecord) : AggState :=
  let matchId := m.matchIdVal
  let opponents := m.opponentsVal
  let winner := m.winnerVal
  let finished := m.finishedVal
  if !finished.truthy || !winner.truthy then s
  else if opponents.length ≠ 2 then s
  else
    let s1 := opponents.foldl registerTeam s
    match opponents with
    | [team1, team2] =>
      let team1Name := team1.resolvedName
      let team2Name := team2.resolvedName
      match winner.toInt with
      | some winnerIndex =>
        if winnerIndex = 1 then
          { s1 with
            wins := updateFn s1.wins team1Name (s1.wins team1Name + 1)
            loses := updateFn s1.loses team2Name (s1.loses team2Name + 1) }
        else if winnerIndex = 2 then
          { s1 with
            wins := updateFn s1.wins team2Name (s1.wins team2Name + 1)
            loses := updateFn s1.loses team1Name (s1.loses team1Name + 1) }
        else
          { s1 with diags := s1.diags ++ [unexpectedWinnerMsg matchId winner] }
      | none =>
        { s1 with diags := s1.diags ++ [invalidWinnerMsg matchId winner] }
    | _ => s1

/-- The empty state set up by lines 53-55 (`wins = {}`, `loses = {}`,
`teams = []`). -/
def initState : AggState :=
  { wins := fun _ => 0, loses := fun _ => 0, teams := [], diags := [] }

/-- The whole aggregation loop: fold the loop body over the match list,
starting from the freshly initialized state. -/
def aggregate (ms : List MatchRecord) : AggState :=
  ms.foldl processMatch initState

/-- `sort_key` (lines 103-104): the tuple `(-wins[team], loses[team])`. -/
def sort_key (s : AggState) (team : String) : Int × Nat :=
  (-(s.wins team : Int), s.loses team)

/-- Lexicographic non-strict comparison of Python sort-key tuples. -/
def tupleLe (p q : Int × Nat) : Bool :=
  decide (p.1 < q.1) || (decide (p.1 = q.1) && decide (p.2 ≤ q.2))

/-- `sorted(teams, key=sort_key)` applied to a given state: Python's
`sorted` is a stable sort by the key tuples, ascending. -/
def rankingOf (s : AggState) : List String :=
  s.teams.mergeSort (fun a b => tupleLe (sort_key s a) (sort_key s b))

/-- `sorted_teams` (line 106) as a function of the input match list. -/
def sorted_teams (ms : List MatchRecord) : List String :=
  rankingOf (aggregate ms)

/-- The script state's basic well-formedness: any name not registered in
`teams` still has both tally functions at their initial value `0` (in the
Python dicts such a name has no entry at all; the total-function model
keeps it at `0`). -/
def stateInv (s : AggState) : Prop :=
  ∀ n : String, n ∉ s.teams → s.wins n = 0 ∧ s.loses n = 0

/-- A record survives the two skip checks of lines 64-69 (finished truthy,
winner truthy, exactly two opponents) and hence reaches the team
registration step. -/
def consideredMatch (m : MatchRecord) : Bool :=
  m.finishedVal.truthy && m.winnerVal.truthy
    && decide (m.opponentsVal.length = 2)

/-- The resolved opponent names of a record. -/
def oppNames (m : MatchRecord) : List String :=
  m.opponentsVal.map Opponent.resolvedName

/-- How much one record contributes to the `wins` counter of `n`:
`1` exactly when the record is considered, its winner field parses to `1`
(resp. `2`) and opponent 1 (resp. 2) resolves to `n`. -/
def winDelta (m : MatchRecord) (n : String) : Nat :=
  if consideredMatch m then
    match m.opponentsVal with
    | [team1, team2] =>
      match m.winnerVal.toInt with
      | some k =>
        if k = 1 then (if team1.resolvedName = n then 1 else 0)
        else if k = 2 then (if team2.resolvedName = n then 1 else 0)
        else 0
      | none => 0
    | _ => 0
  else 0

/-- How much one record contributes to the `loses` counter of `n`. -/
def loseDelta (m : MatchRecord) (n : String) : Nat :=
  if consideredMatch m then
    match m.opponentsVal with
    | [team1, team2] =>
      match m.winnerVal.toInt with
      | some k =>
        if k = 1 then (if team2.resolvedName = n then 1 else 0)
        else if k = 2 then (if team1.resolvedName = n then 1 else 0)
        else 0
      | none => 0
    | _ => 0
  else 0

/-- Total wins accumulated for `n` over a list of records. -/
def winsTotal (ms : List MatchRecord) (n : String) : Nat :=
  (ms.map (fun m => winDelta m n)).sum

/-- Total losses accumulated for `n` over a list of records. -/
def losesTotal (ms : List MatchRecord) (n : String) : Nat :=
  (ms.map (fun m => loseDelta m n)).sum

/-- All team names encountered across the considered records of the input
(those reaching the registration step), in encounter order and with
multiplicity. -/
def encounteredNames (ms : List MatchRecord) : List String :=
  ms.flatMap (fun m => if consideredMatch m then oppNames m else [])

/-- The number of finished two-opponent records of the input in which `n`
participates (each such record counted once, as in the specification's
participation bound). -/
def participCount (ms : List MatchRecord) (n : String) : Nat :=
  ms.countP
    (fun m => m.finishedVal.truthy && decide (m.opponentsVal.length = 2)
      && decide (n ∈ oppNames m))

/-- The number of opponent slots of finished two-opponent records of the
input that resolve to `n` (participation counted with multiplicity: a
record whose two opponents both resolve to `n` contributes `2`). -/
def participSlots (ms : List MatchRecord) (n : String) : Nat :=
  (ms.map
    (fun m =>
      if m.finishedVal.truthy && decide (m.opponentsVal.length = 2) then
        (oppNames m).count n
      else 0)).sum

/-- Lines 53-55 (`wins = {}`, `loses = {}`, `teams = []`): the three tally
containers are reassigned to fresh empty ones, discarding whatever a
previous run left in them; previously printed diagnostics are not (and
cannot be) retracted. -/
def resetState (leftover : AggState) : AggState :=
  { wins := fun _ => 0, loses := fun _ => 0, teams := []
    diags := leftover.diags }

/-- One execution of the tally phase of the script starting from arbitrary
leftover state: first the reassignments of lines 53-55, then the
aggregation loop. -/
def runScript (leftover : AggState) (ms : List MatchRecord) : AggState :=
  ms.foldl processMatch (resetState leftover)

/-- Example opponent with name "Alpha", used for concrete witnesses. -/
def oppA : Opponent := ⟨some "Alpha"⟩

/-- Example opponent with name "Bravo". -/
def oppB : Opponent := ⟨some "Bravo"⟩

/-- Example opponent with name "Charlie". -/
def oppC : Opponent := ⟨some "Charlie"⟩

/-- Example opponent with no name field (resolves to "Unknown"). -/
def oppU : Opponent := ⟨none⟩

/-- A finished match record with the given id, opponents and winner field. -/
def finishedRec (mid : String) (ops : List Opponent) (w : PyVal) : MatchRecord :=
  ⟨some (PyVal.vstr mid), some ops, some w, some (PyVal.vbool true)⟩

/-- Alpha beats Bravo (winner "1"). -/
def exWin1 : MatchRecord := finishedRec "M1" [oppA, oppB] (PyVal.vstr "1")

/-- Bravo beats Alpha (winner "2"). -/
def exWin2AB : MatchRecord := finishedRec "M1" [oppA, oppB] (PyVal.vstr "2")

/-- Alpha beats Charlie (winner "1"). -/
def exWin1AC : MatchRecord := finishedRec "M2" [oppA, oppC] (PyVal.vstr "1")

/-- Finished two-opponent record with winner "3" (parses, but not 1 or 2). -/
def exBad3 : MatchRecord := finishedRec "M3" [oppA, oppB] (PyVal.vstr "3")

/-- Finished two-opponent record with non-numeric winner "abc". -/
def exBadStr : MatchRecord := finishedRec "M4" [oppA, oppB] (PyVal.vstr "abc")

/-- Finished two-opponent record whose winner is the integer 0: present and
not interpretable as 1 or 2, but falsy in Python. -/
def exZeroWinner : MatchRecord := finishedRec "M5" [oppA, oppB] (PyVal.vint 0)

/-- Finished record whose two opponents both lack a name, so both resolve
to the sentinel "Unknown"; winner "1". -/
def exUnknownPair : MatchRecord := finishedRec "M6" [oppU, oppU] (PyVal.vstr "1")

/-- An unfinished record (finished = 0) that otherwise looks complete. -/
def exUnfinished : MatchRecord :=
  ⟨some (PyVal.vstr "M7"), some [oppA, oppB], some (PyVal.vstr "1"),
    some (PyVal.vint 0)⟩

example : parseIntStr "1" = some 1 := by decide
example : parseIntStr "abc" = none := by decide
example : parseIntStr " -12 " = some (-12) := by decide
example : (PyVal.vint 0).truthy = false := by decide

/-! ### Lemmas about `registerTeam` -/

theorem registerTeam_diags (s : AggState) (o : Opponent) :
    (registerTeam s o).diags = s.diags := by
  simp only [registerTeam]
  split <;> rfl

theorem mem_registerTeam_teams (s : AggState) (o : Opponent) (n : String) :
    n ∈ (registerTeam s o).teams ↔ n ∈ s.teams ∨ n = o.resolvedName := by
  simp only [registerTeam]
  split
  · rename_i h
    constructor
    · exact fun hn => Or.inl hn
    · rintro (hn | rfl)
      · exact hn
      · exact h
  · simp [List.mem_append]

theorem registerTeam_teams_mono (s : AggState) (o : Opponent) (n : String)
    (h : n ∈ s.teams) : n ∈ (registerTeam s o).teams := by
  rw [mem_registerTeam_teams]
  exact Or.inl h

theorem resolvedName_mem_registerTeam (s : AggState) (o : Opponent) :
    o.resolvedName ∈ (registerTeam s o).teams := by
  rw [mem_registerTeam_teams]
  exact Or.inr rfl

theorem registerTeam_wins (s : AggState) (o : Opponent) (hs : stateInv s)
    (n : String) : (registerTeam s o).wins n = s.wins n := by
  simp only [registerTeam]
  split
  · rfl
  · rename_i h
    simp only [updateFn]
    split
    · rename_i he
      subst he
      exact ((hs _ h).1).symm
    · rfl

theorem registerTeam_loses (s : AggState) (o : Opponent) (hs : stateInv s)
    (n : String) : (registerTeam s o).loses n = s.loses n := by
  simp only [registerTeam]
  split
  · rfl
  · rename_i h
    simp only [updateFn]
    split
    · rename_i he
      subst he
      exact ((hs _ h).2).symm
    · rfl

theorem registerTeam_inv (s : AggState) (o : Opponent) (hs : stateInv s) :
    stateInv (registerTeam s o) := by
  intro n hn
  have hn0 : n ∉ s.teams := by
    intro hmem
    exact hn (registerTeam_teams_mono s o n hmem)
  rw [registerTeam_wins s o hs n, registerTeam_loses s o hs n]
  exact hs n hn0

theorem registerTeam_nodup (s : AggState) (o : Opponent)
    (hs : s.teams.Nodup) : (registerTeam s o).teams.Nodup := by
  simp only [registerTeam]
  split
  · exact hs
  · rename_i h
    simpa [List.nodup_append] using ⟨hs, h⟩

/-! ### Lemmas about the registration fold (lines 72-77) -/

theorem regFold_diags (l : List Opponent) :
    ∀ s : AggState, (l.foldl registerTeam s).diags = s.diags := by
  induction l with
  | nil => intro s; rfl
  | cons o l ih =>
    intro s
    rw [List.foldl_cons, ih, registerTeam_diags]

theorem mem_regFold_teams (l : List Opponent) :
    ∀ (s : AggState) (n : String),
      n ∈ (l.foldl registerTeam s).teams ↔
        n ∈ s.teams ∨ n ∈ l.map Opponent.resolvedName := by
  induction l with
  | nil => intro s n; simp
  | cons o l ih =>
    intro s n
    rw [List.foldl_cons, ih, mem_registerTeam_teams]
    simp only [List.map_cons, List.mem_cons]
    tauto

theorem regFold_wins (l : List Opponent) :
    ∀ (s : AggState), stateInv s →
      ∀ n : String, (l.foldl registerTeam s).wins n = s.wins n := by
  induction l with
  | nil => intro s _ n; rfl
  | cons o l ih =>
    intro s hs n
    rw [List.foldl_cons, ih _ (registerTeam_inv s o hs) n,
      registerTeam_wins s o hs n]

theorem regFold_loses (l : List Opponent) :
    ∀ (s : AggState), stateInv s →
      ∀ n : String, (l.foldl registerTeam s).loses n = s.loses n := by
  induction l with
  | nil => intro s _ n; rfl
  | cons o l ih =>
    intro s hs n
    rw [List.foldl_cons, ih _ (registerTeam_inv s o hs) n,
      registerTeam_loses s o hs n]

theorem regFold_inv (l : List Opponent) :
    ∀ s : AggState, stateInv s → stateInv (l.foldl registerTeam s) := by
  induction l with
  | nil => intro s hs; exact hs
  | cons o l ih =>
    intro s hs
    exact ih _ (registerTeam_inv s o hs)

theorem regFold_nodup (l : List Opponent) :
    ∀ s : AggState, s.teams.Nodup → (l.foldl registerTeam s).teams.Nodup := by
  induction l with
  | nil => intro s hs; exact hs
  | cons o l ih =>
    intro s hs
    exact ih _ (registerTeam_nodup s o hs)

theorem regFold_mem_of_mem (l : List Opponent) (o : Opponent) (ho : o ∈ l)
    (s : AggState) :
    o.resolvedName ∈ (l.foldl registerTeam s).teams := by
  rw [mem_regFold_teams]
  exact Or.inr (List.mem_map_of_mem Opponent.resolvedName ho)

/-! ### Lemmas about `processMatch` -/

theorem processMatch_of_not_considered (s : AggState) (m : MatchRecord)
    (h : consideredMatch m = false) : processMatch s m = s := by
  by_cases hf : m.finishedVal.truthy = true
  · by_cases hw : m.winnerVal.truthy = true
    · have hlen : m.opponentsVal.length ≠ 2 := by
        simp [consideredMatch, hf, hw] at h
        exact h
      simp [processMatch, hf, hw, hlen]
    · simp only [Bool.not_eq_true] at hw
      simp [processMatch, hw]
  · simp only [Bool.not_eq_true] at hf
    simp [processMatch, hf]

theorem processMatch_eq_considered (s : AggState) (m : MatchRecord)
    (t1 t2 : Opponent)
    (hf : m.finishedVal.truthy = true) (hw : m.winnerVal.truthy = true)
    (hop : m.opponentsVal = [t1, t2]) :
    processMatch s m =
      (match m.winnerVal.toInt with
       | some k =>
         if k = 1 then
           { [t1, t2].foldl registerTeam s with
             wins := updateFn ([t1, t2].foldl registerTeam s).wins
               t1.resolvedName
               (([t1, t2].foldl registerTeam s).wins t1.resolvedName + 1)
             loses := updateFn ([t1, t2].foldl registerTeam s).loses
               t2.resolvedName
               (([t1, t2].foldl registerTeam s).loses t2.resolvedName + 1) }
         else if k = 2 then
           { [t1, t2].foldl registerTeam s with
             wins := updateFn ([t1, t2].foldl registerTeam s).wins
               t2.resolvedName
               (([t1, t2].foldl registerTeam s).wins t2.resolvedName + 1)
             loses := updateFn ([t1, t2].foldl registerTeam s).loses
               t1.resolvedName
               (([t1, t2].foldl registerTeam s).loses t1.resolvedName + 1) }
         else
           { [t1, t2].foldl registerTeam s with
             diags := ([t1, t2].foldl registerTeam s).diags
               ++ [unexpectedWinnerMsg m.matchIdVal m.winnerVal] }
       | none =>
         { [t1, t2].foldl registerTeam s with
           diags := ([t1, t2].foldl registerTeam s).diags
             ++ [invalidWinnerMsg m.matchIdVal m.winnerVal] }) := by
  simp [processMatch, hf, hw, hop]

theorem consideredMatch_true_of (m : MatchRecord) (t1 t2 : Opponent)
    (hf : m.finishedVal.truthy = true) (hw : m.winnerVal.truthy = true)
    (hop : m.opponentsVal = [t1, t2]) : consideredMatch m = true := by
  simp [consideredMatch, hf, hw, hop]

theorem consideredMatch_elim (m : MatchRecord) (h : consideredMatch m = true) :
    ∃ t1 t2 : Opponent,
      m.finishedVal.truthy = true ∧ m.winnerVal.truthy = true ∧
        m.opponentsVal = [t1, t2] := by
  simp only [consideredMatch, Bool.and_eq_true, decide_eq_true_eq] at h
  obtain ⟨⟨hf, hw⟩, hlen⟩ := h
  match hop : m.opponentsVal, hlen' : m.opponentsVal.length with
  | [t1, t2], _ => exact ⟨t1, t2, hf, hw, rfl⟩
  | [], h2 | [a], h2 | a :: b :: c :: l, h2 =>
    rw [hop] at hlen
    simp at hlen

theorem processMatch_wins (s : AggState) (m : MatchRecord)
    (hs : stateInv s) (n : String) :
    (processMatch s m).wins n = s.wins n + winDelta m n := by
  by_cases hc : consideredMatch m = true
  · obtain ⟨t1, t2, hf, hw, hop⟩ := consideredMatch_elim m hc
    rw [processMatch_eq_considered s m t1 t2 hf hw hop]
    have hreg : ∀ q : String,
        ([t1, t2].foldl registerTeam s).wins q = s.wins q :=
      regFold_wins [t1, t2] s hs
    have hreg2 : ∀ q : String,
        (registerTeam (registerTeam s t1) t2).wins q = s.wins q := by
      intro q
      simpa using hreg q
    rcases hti : m.winnerVal.toInt with _ | k
    · simp only [winDelta, hc, if_true, hop, hti]
      exact hreg n
    · by_cases hk1 : k = 1
      · subst hk1
        simp only [hti, if_pos rfl]
        simp only [winDelta, hc, if_true, hop, hti, updateFn]
        by_cases hn : n = t1.resolvedName
        · subst hn
          simp [hreg2]
        · have hn2 : ¬ t1.resolvedName = n := fun h => hn h.symm
          simp [hn, hn2, hreg2]
      · by_cases hk2 : k = 2
        · subst hk2
          simp only [hti, if_neg (by decide : ¬(2 : Int) = 1), if_pos rfl]
          simp only [winDelta, hc, if_true, hop, hti, updateFn]
          by_cases hn : n = t2.resolvedName
          · subst hn
            simp [hk1, hreg2]
          · have hn2 : ¬ t2.resolvedName = n := fun h => hn h.symm
            simp [hn, hn2, hk1, hreg2]
        · simp only [hti, if_neg hk1, if_neg hk2]
          simp only [winDelta, hc, if_true, hop, hti, if_neg hk1, if_neg hk2]
          exact hreg n
  · rw [processMatch_of_not_considered s m (by simpa using hc)]
    simp [winDelta, hc]

theorem processMatch_loses (s : AggState) (m : MatchRecord)
    (hs : stateInv s) (n : String) :
    (processMatch s m).loses n = s.loses n + loseDelta m n := by
  by_cases hc : consideredMatch m = true
  · obtain ⟨t1, t2, hf, hw, hop⟩ := consideredMatch_elim m hc
    rw [processMatch_eq_considered s m t1 t2 hf hw hop]
    have hreg : ∀ q : String,
        ([t1, t2].foldl registerTeam s).loses q = s.loses q :=
      regFold_loses [t1, t2] s hs
    have hreg2 : ∀ q : String,
        (registerTeam (registerTeam s t1) t2).loses q = s.loses q := by
      intro q
      simpa using hreg q
    rcases hti : m.winnerVal.toInt with _ | k
    · simp only [loseDelta, hc, if_true, hop, hti]
      exact hreg n
    · by_cases hk1 : k = 1
      · subst hk1
        simp only [hti, if_pos rfl]
        simp only [loseDelta, hc, if_true, hop, hti, updateFn]
        by_cases hn : n = t2.resolvedName
        · subst hn
          simp [hreg2]
        · have hn2 : ¬ t2.resolvedName = n := fun h => hn h.symm
          simp [hn, hn2, hreg2]
      · by_cases hk2 : k = 2
        · subst hk2
          simp only [hti, if_neg (by decide : ¬(2 : Int) = 1), if_pos rfl]
          simp only [loseDelta, hc, if_true, hop, hti, updateFn]
          by_cases hn : n = t1.resolvedName
          · subst hn
            simp [hk1, hreg2]
          · have hn2 : ¬ t1.resolvedName = n := fun h => hn h.symm
            simp [hn, hn2, hk1, hreg2]
        · simp only [hti, if_neg hk1, if_neg hk2]
          simp only [loseDelta, hc, if_true, hop, hti, if_neg hk1, if_neg hk2]
          exact hreg n
  · rw [processMatch_of_not_considered s m (by simpa using hc)]
    simp [loseDelta, hc]

theorem mem_processMatch_teams (s : AggState) (m : MatchRecord) (n : String) :
    n ∈ (processMatch s m).teams ↔
      n ∈ s.teams ∨ (consideredMatch m = true ∧ n ∈ oppNames m) := by
  by_cases hc : consideredMatch m = true
  · obtain ⟨t1, t2, hf, hw, hop⟩ := consideredMatch_elim m hc
    rw [processMatch_eq_considered s m t1 t2 hf hw hop]
    have hmem : ∀ u : AggState, u.teams = ([t1, t2].foldl registerTeam s).teams →
        (n ∈ u.teams ↔ n ∈ s.teams ∨ (consideredMatch m = true ∧ n ∈ oppNames m)) := by
      intro u hu
      rw [hu, mem_regFold_teams]
      simp [oppNames, hop, hc]
    rcases hti : m.winnerVal.toInt with _ | k
    · exact hmem _ rfl
    · by_cases hk1 : k = 1
      · subst hk1
        simp only [hti, if_pos rfl]
        exact hmem _ rfl
      · by_cases hk2 : k = 2
        · subst hk2
          simp only [hti, if_neg (by decide : ¬(2 : Int) = 1), if_pos rfl]
          exact hmem _ rfl
        · simp only [hti, if_neg hk1, if_neg hk2]
          exact hmem _ rfl
  · rw [processMatch_of_not_considered s m (by simpa using hc)]
    simp [hc]

theorem processMatch_teams_mono (s : AggState) (m : MatchRecord) (n : String)
    (h : n ∈ s.teams) : n ∈ (processMatch s m).teams := by
  rw [mem_processMatch_teams]
  exact Or.inl h

theorem processMatch_nodup (s : AggState) (m : MatchRecord)
    (hs : s.teams.Nodup) : (processMatch s m).teams.Nodup := by
  by_cases hc : consideredMatch m = true
  · obtain ⟨t1, t2, hf, hw, hop⟩ := consideredMatch_elim m hc
    rw [processMatch_eq_considered s m t1 t2 hf hw hop]
    have hnd : ([t1, t2].foldl registerTeam s).teams.Nodup :=
      regFold_nodup [t1, t2] s hs
    rcases hti : m.winnerVal.toInt with _ | k
    · exact hnd
    · by_cases hk1 : k = 1
      · subst hk1
        simpa only [hti, if_pos rfl] using hnd
      · by_cases hk2 : k = 2
        · subst hk2
          simpa only [hti, if_neg (by decide : ¬(2 : Int) = 1), if_pos rfl]
            using hnd
        · simpa only [hti, if_neg hk1, if_neg hk2] using hnd
  · rw [processMatch_of_not_considered s m (by simpa using hc)]
    exact hs

theorem winDelta_ne_zero (m : MatchRecord) (n : String)
    (h : winDelta m n ≠ 0) :
    consideredMatch m = true ∧ n ∈ oppNames m := by
  by_cases hc : consideredMatch m = true
  · refine ⟨hc, ?_⟩
    obtain ⟨t1, t2, hf, hw, hop⟩ := consideredMatch_elim m hc
    simp only [winDelta, hc, if_true, hop] at h
    rcases hti : m.winnerVal.toInt with _ | k <;> rw [hti] at h
    · simp at h
    · simp only [oppNames, hop, List.map_cons, List.map_nil, List.mem_cons]
      by_cases hk1 : k = 1
      · subst hk1
        simp only [if_pos rfl] at h
        by_cases hn : t1.resolvedName = n
        · exact Or.inl hn.symm
        · simp [hn] at h
      · by_cases hk2 : k = 2
        · subst hk2
          simp only [if_neg hk1, if_pos rfl] at h
          by_cases hn : t2.resolvedName = n
          · exact Or.inr (Or.inl hn.symm)
          · simp [hn] at h
        · simp [hk1, hk2] at h
  · exfalso
    apply h
    simp [winDelta, hc]

theorem loseDelta_ne_zero (m : MatchRecord) (n : String)
    (h : loseDelta m n ≠ 0) :
    consideredMatch m = true ∧ n ∈ oppNames m := by
  by_cases hc : consideredMatch m = true
  · refine ⟨hc, ?_⟩
    obtain ⟨t1, t2, hf, hw, hop⟩ := consideredMatch_elim m hc
    simp only [loseDelta, hc, if_true, hop] at h
    rcases hti : m.winnerVal.toInt with _ | k <;> rw [hti] at h
    · simp at h
    · simp only [oppNames, hop, List.map_cons, List.map_nil, List.mem_cons]
      by_cases hk1 : k = 1
      · subst hk1
        simp only [if_pos rfl] at h
        by_cases hn : t2.resolvedName = n
        · exact Or.inr (Or.inl hn.symm)
        · simp [hn] at h
      · by_cases hk2 : k = 2
        · subst hk2
          simp only [if_neg hk1, if_pos rfl] at h
          by_cases hn : t1.resolvedName = n
          · exact Or.inl hn.symm
          · simp [hn] at h
        · simp [hk1, hk2] at h
  · exfalso
    apply h
    simp [loseDelta, hc]

theorem processMatch_inv (s : AggState) (m : MatchRecord)
    (hs : stateInv s) : stateInv (processMatch s m) := by
  intro n hn
  have hn0 : n ∉ s.teams := fun h => hn (processMatch_teams_mono s m n h)
  have hwd : winDelta m n = 0 := by
    by_contra hne
    obtain ⟨hc, hmem⟩ := winDelta_ne_zero m n hne
    exact hn ((mem_processMatch_teams s m n).mpr (Or.inr ⟨hc, hmem⟩))
  have hld : loseDelta m n = 0 := by
    by_contra hne
    obtain ⟨hc, hmem⟩ := loseDelta_ne_zero m n hne
    exact hn ((mem_processMatch_teams s m n).mpr (Or.inr ⟨hc, hmem⟩))
  rw [processMatch_wins s m hs n, processMatch_loses s m hs n, hwd, hld]
  simpa using hs n hn0

/-! ### Lemmas about the whole aggregation fold -/

theorem foldPM_inv (ms : List MatchRecord) :
    ∀ s : AggState, stateInv s → stateInv (ms.foldl processMatch s) := by
  induction ms with
  | nil => intro s hs; exact hs
  | cons m ms ih =>
    intro s hs
    exact ih _ (processMatch_inv s m hs)

theorem foldPM_nodup (ms : List MatchRecord) :
    ∀ s : AggState, s.teams.Nodup → (ms.foldl processMatch s).teams.Nodup := by
  induction ms with
  | nil => intro s hs; exact hs
  | cons m ms ih =>
    intro s hs
    exact ih _ (processMatch_nodup s m hs)

theorem foldPM_wins (ms : List MatchRecord) :
    ∀ s : AggState, stateInv s → ∀ n : String,
      (ms.foldl processMatch s).wins n = s.wins n + winsTotal ms n := by
  induction ms with
  | nil => intro s _ n; simp [winsTotal]
  | cons m ms ih =>
    intro s hs n
    rw [List.foldl_cons, ih _ (processMatch_inv s m hs) n,
      processMatch_wins s m hs n]
    simp [winsTotal, Nat.add_assoc]

theorem foldPM_loses (ms : List MatchRecord) :
    ∀ s : AggState, stateInv s → ∀ n : String,
      (ms.foldl processMatch s).loses n = s.loses n + losesTotal ms n := by
  induction ms with
  | nil => intro s _ n; simp [losesTotal]
  | cons m ms ih =>
    intro s hs n
    rw [List.foldl_cons, ih _ (processMatch_inv s m hs) n,
      processMatch_loses s m hs n]
    simp [losesTotal, Nat.add_assoc]

theorem mem_foldPM_teams (ms : List MatchRecord) :
    ∀ (s : AggState) (n : String),
      n ∈ (ms.foldl processMatch s).teams ↔
        n ∈ s.teams ∨ n ∈ encounteredNames ms := by
  induction ms with
  | nil => intro s n; simp [encounteredNames]
  | cons m ms ih =>
    intro s n
    rw [List.foldl_cons, ih, mem_processMatch_teams]
    simp only [encounteredNames, List.flatMap_cons, List.mem_append,
      List.mem_flatMap]
    by_cases hc : consideredMatch m = true
    · simp only [hc, if_true, true_and, List.mem_append]
      tauto
    · simp only [Bool.not_eq_true] at hc
      simp only [hc, Bool.false_eq_true, if_false, false_and, List.not_mem_nil,
        false_or]
      tauto

theorem initState_inv : stateInv initState := by
  intro n _
  exact ⟨rfl, rfl⟩

theorem aggregate_inv (ms : List MatchRecord) : stateInv (aggregate ms) :=
  foldPM_inv ms initState initState_inv

theorem aggregate_wins (ms : List MatchRecord) (n : String) :
    (aggregate ms).wins n = winsTotal ms n := by
  have h := foldPM_wins ms initState initState_inv n
  simpa [aggregate, initState] using h

theorem aggregate_loses (ms : List MatchRecord) (n : String) :
    (aggregate ms).loses n = losesTotal ms n := by
  have h := foldPM_loses ms initState initState_inv n
  simpa [aggregate, initState] using h

theorem mem_aggregate_teams (ms : List MatchRecord) (n : String) :
    n ∈ (aggregate ms).teams ↔ n ∈ encounteredNames ms := by
  have h := mem_foldPM_teams ms initState n
  simpa [aggregate, initState] using h

theorem aggregate_nodup (ms : List MatchRecord) :
    (aggregate ms).teams.Nodup :=
  foldPM_nodup ms initState (by simp [initState])

/-! ### Lemmas about the comparison function and the ranking -/

theorem tupleLe_trans (p q r : Int × Nat) (h1 : tupleLe p q = true)
    (h2 : tupleLe q r = true) : tupleLe p r = true := by
  simp only [tupleLe, Bool.or_eq_true, Bool.and_eq_true, decide_eq_true_eq]
    at h1 h2 ⊢
  omega

theorem tupleLe_total (p q : Int × Nat) :
    (tupleLe p q || tupleLe q p) = true := by
  simp only [tupleLe, Bool.or_eq_true, Bool.and_eq_true, decide_eq_true_eq]
  omega

theorem rankingOf_perm (s : AggState) : List.Perm (rankingOf s) s.teams :=
  List.mergeSort_perm s.teams _

theorem mem_rankingOf (s : AggState) (n : String) :
    n ∈ rankingOf s ↔ n ∈ s.teams :=
  List.mem_mergeSort

theorem rankingOf_pairwise (s : AggState) :
    (rankingOf s).Pairwise
      (fun a b => tupleLe (sort_key s a) (sort_key s b) = true) := by
  have h := @List.sorted_mergeSort String
    (fun a b => tupleLe (sort_key s a) (sort_key s b))
    (fun a b c h1 h2 => tupleLe_trans _ _ _ h1 h2)
    (fun a b => tupleLe_total _ _) s.teams
  exact h

theorem rankingOf_nodup (s : AggState) (h : s.teams.Nodup) :
    (rankingOf s).Nodup :=
  ((rankingOf_perm s).nodup_iff).mpr h

/-! ### Further helper lemmas -/

theorem PyVal.truthy_of_toInt_ne_zero (v : PyVal) (k : Int)
    (h : v.toInt = some k) (hk : k ≠ 0) : v.truthy = true := by
  cases v with
  | vnone => simp [PyVal.toInt] at h
  | vbool b =>
    cases b
    · exfalso
      apply hk
      simpa [PyVal.toInt] using h.symm
    · rfl
  | vint n =>
    have hn : n = k := by simpa [PyVal.toInt] using h
    subst hn
    simp [PyVal.truthy, hk]
  | vstr s =>
    by_cases hs0 : s = ""
    · subst hs0
      exfalso
      have hnone : parseIntStr "" = none := rfl
      rw [show (PyVal.vstr "").toInt = parseIntStr "" from rfl, hnone] at h
      exact Option.noConfusion h
    · simp [PyVal.truthy, hs0]

theorem delta_le_slot (m : MatchRecord) (n : String) :
    winDelta m n + loseDelta m n ≤
      (if m.finishedVal.truthy && decide (m.opponentsVal.length = 2) then
        (oppNames m).count n
      else 0) := by
  by_cases hc : consideredMatch m = true
  · obtain ⟨t1, t2, hf, hw, hop⟩ := consideredMatch_elim m hc
    have hcond :
        (m.finishedVal.truthy && decide (m.opponentsVal.length = 2)) = true := by
      simp [hf, hop]
    rw [if_pos hcond]
    have hcount : (oppNames m).count n =
        (if t1.resolvedName = n then 1 else 0)
          + (if t2.resolvedName = n then 1 else 0) := by
      simp only [oppNames, hop, List.map_cons, List.map_nil]
      by_cases h1 : t1.resolvedName = n <;> by_cases h2 : t2.resolvedName = n <;>
        simp [List.count_cons, List.count_nil, h1, h2]
    rw [hcount]
    rcases hti : m.winnerVal.toInt with _ | k
    · simp only [winDelta, loseDelta, hc, if_true, hop, hti]
      omega
    · by_cases hk1 : k = 1
      · subst hk1
        simp only [winDelta, loseDelta, hc, if_true, hop, hti, if_pos rfl]
        omega
      · by_cases hk2 : k = 2
        · subst hk2
          simp only [winDelta, loseDelta, hc, if_true, hop, hti, if_neg hk1,
            if_pos rfl]
          omega
        · simp only [winDelta, loseDelta, hc, if_true, hop, hti, if_neg hk1,
            if_neg hk2]
          omega
  · simp only [Bool.not_eq_true] at hc
    simp only [winDelta, loseDelta, hc, Bool.false_eq_true, if_false]
    split <;> omega

theorem totals_le_participSlots (ms : List MatchRecord) (n : String) :
    winsTotal ms n + losesTotal ms n ≤ participSlots ms n := by
  induction ms with
  | nil => simp [winsTotal, losesTotal, participSlots]
  | cons m ms ih =>
    have h := delta_le_slot m n
    simp only [winsTotal, losesTotal, participSlots, List.map_cons,
      List.sum_cons] at ih ⊢
    omega

theorem participSlots_append (xs ys : List MatchRecord) (n : String) :
    participSlots (xs ++ ys) n = participSlots xs n + participSlots ys n := by
  simp [participSlots, List.map_append, List.sum_append]

theorem pair_sublist_of_lt {α : Type} (l : List α) (i j : Nat)
    (hij : i < j) (hj : j < l.length) (hi : i < l.length) :
    List.Sublist [l.get ⟨i, hi⟩, l.get ⟨j, hj⟩] l := by
  induction l generalizing i j with
  | nil => simp at hj
  | cons a t ih =>
    match i, j with
    | 0, j + 1 =>
      simp only [List.get_eq_getElem, List.getElem_cons_zero,
        List.getElem_cons_succ]
      refine List.Sublist.cons₂ a ?_
      rw [List.singleton_sublist]
      exact List.getElem_mem _
    | i + 1, j + 1 =>
      simp only [List.get_eq_getElem, List.getElem_cons_succ]
      refine List.Sublist.cons a ?_
      have := ih i j (by omega) (by simpa using hj) (by simpa using hi)
      simpa using this

theorem exists_indices_of_pair_sublist {α : Type} {a b : α} {l : List α}
    (h : List.Sublist [a, b] l) :
    ∃ (p q : Nat) (hp : p < l.length) (hq : q < l.length),
      p < q ∧ l.get ⟨p, hp⟩ = a ∧ l.get ⟨q, hq⟩ = b := by
  rw [List.cons_sublist_iff] at h
  obtain ⟨r1, r2, rfl, ha, hb⟩ := h
  rw [List.singleton_sublist] at hb
  obtain ⟨p, hp, hpa⟩ := List.getElem_of_mem ha
  obtain ⟨q0, hq0, hqb⟩ := List.getElem_of_mem hb
  refine ⟨p, r1.length + q0, ?_, ?_, ?_, ?_, ?_⟩
  · rw [List.length_append]
    omega
  · rw [List.length_append]
    omega
  · omega
  · rw [List.get_eq_getElem, List.getElem_append_left hp]
    exact hpa
  · rw [List.get_eq_getElem,
      List.getElem_append_right (by omega : r1.length ≤ r1.length + q0)]
    simpa using hqb

theorem registerTeam_congr (s1 s2 : AggState) (o : Opponent)
    (hw : s1.wins = s2.wins) (hl : s1.loses = s2.loses)
    (ht : s1.teams = s2.teams) :
    (registerTeam s1 o).wins = (registerTeam s2 o).wins ∧
    (registerTeam s1 o).loses = (registerTeam s2 o).loses ∧
    (registerTeam s1 o).teams = (registerTeam s2 o).teams := by
  by_cases hmem : o.resolvedName ∈ s2.teams
  · simp [registerTeam, ht, hmem, hw, hl]
  · simp [registerTeam, ht, hmem, hw, hl]

theorem regFold_congr (l : List Opponent) :
    ∀ (s1 s2 : AggState), s1.wins = s2.wins → s1.loses = s2.loses →
      s1.teams = s2.teams →
      (l.foldl registerTeam s1).wins = (l.foldl registerTeam s2).wins ∧
      (l.foldl registerTeam s1).loses = (l.foldl registerTeam s2).loses ∧
      (l.foldl registerTeam s1).teams = (l.foldl registerTeam s2).teams := by
  induction l with
  | nil => intro s1 s2 hw hl ht; exact ⟨hw, hl, ht⟩
  | cons o l ih =>
    intro s1 s2 hw hl ht
    obtain ⟨cw, cl, ct⟩ := registerTeam_congr s1 s2 o hw hl ht
    exact ih _ _ cw cl ct

theorem processMatch_congr (m : MatchRecord) (s1 s2 : AggState)
    (hw : s1.wins = s2.wins) (hl : s1.loses = s2.loses)
    (ht : s1.teams = s2.teams) :
    (processMatch s1 m).wins = (processMatch s2 m).wins ∧
    (processMatch s1 m).loses = (processMatch s2 m).loses ∧
    (processMatch s1 m).teams = (processMatch s2 m).teams := by
  by_cases hc : consideredMatch m = true
  · obtain ⟨t1, t2, hf, hwt, hop⟩ := consideredMatch_elim m hc
    rw [processMatch_eq_considered s1 m t1 t2 hf hwt hop,
      processMatch_eq_considered s2 m t1 t2 hf hwt hop]
    obtain ⟨cw, cl, ct⟩ := regFold_congr [t1, t2] s1 s2 hw hl ht
    simp only [List.foldl_cons, List.foldl_nil] at cw cl ct
    rcases hti : m.winnerVal.toInt with _ | k
    · exact ⟨cw, cl, ct⟩
    · refine ⟨?_, ?_, ?_⟩ <;>
        by_cases hk1 : k = 1 <;> by_cases hk2 : k = 2 <;>
          simp [hk1, hk2, cw, cl, ct]
  · rw [processMatch_of_not_considered s1 m (by simpa using hc),
      processMatch_of_not_considered s2 m (by simpa using hc)]
    exact ⟨hw, hl, ht⟩

theorem foldPM_congr (ms : List MatchRecord) :
    ∀ (s1 s2 : AggState), s1.wins = s2.wins → s1.loses = s2.loses →
      s1.teams = s2.teams →
      (ms.foldl processMatch s1).wins = (ms.foldl processMatch s2).wins ∧
      (ms.foldl processMatch s1).loses = (ms.foldl processMatch s2).loses ∧
      (ms.foldl processMatch s1).teams = (ms.foldl processMatch s2).teams := by
  induction ms with
  | nil => intro s1 s2 hw hl ht; exact ⟨hw, hl, ht⟩
  | cons m ms ih =>
    intro s1 s2 hw hl ht
    obtain ⟨cw, cl, ct⟩ := processMatch_congr m s1 s2 hw hl ht
    exact ih _ _ cw cl ct

theorem rankingOf_congr (s1 s2 : AggState) (hw : s1.wins = s2.wins)
    (hl : s1.loses = s2.loses) (ht : s1.teams = s2.teams) :
    rankingOf s1 = rankingOf s2 := by
  unfold rankingOf sort_key
  rw [ht, hw, hl]

/-! ### Claim theorems -/

/-- C1: the ranking sorts the registered team names by the key
(-wins, losses) ascending.  If the team at output position i has strictly
more wins than the team at position j, or equal wins and strictly fewer
losses, then i comes strictly before j. -/
theorem c1_ranking_order (ms : List MatchRecord) (i j : Nat)
    (hi : i < (sorted_teams ms).length) (hj : j < (sorted_teams ms).length)
    (hbetter :
      (aggregate ms).wins ((sorted_teams ms)[j])
          < (aggregate ms).wins ((sorted_teams ms)[i])
        ∨ ((aggregate ms).wins ((sorted_teams ms)[i])
              = (aggregate ms).wins ((sorted_teams ms)[j])
            ∧ (aggregate ms).loses ((sorted_teams ms)[i])
              < (aggregate ms).loses ((sorted_teams ms)[j]))) :
    i < j := by
  rcases Nat.lt_trichotomy i j with h | h | h
  · exact h
  · exfalso
    subst h
    rcases hbetter with h1 | ⟨h2, h3⟩
    · exact absurd h1 (lt_irrefl _)
    · exact absurd h3 (lt_irrefl _)
  · exfalso
    have hsp : (sorted_teams ms).Pairwise
        (fun a b => tupleLe (sort_key (aggregate ms) a)
          (sort_key (aggregate ms) b) = true) :=
      rankingOf_pairwise (aggregate ms)
    have hp := List.pairwise_iff_getElem.mp hsp j i hj hi h
    simp only [tupleLe, sort_key, Bool.or_eq_true, Bool.and_eq_true,
      decide_eq_true_eq] at hp
    rcases hbetter with h1 | ⟨h2, h3⟩ <;> omega

/-- Witness for C1: in the ranking of the single match "Alpha beats
Bravo", Alpha (1-0, position 0) precedes Bravo (0-1, position 1). -/
theorem c1_ranking_order_witness : (0 : Nat) < 1 := by
  have hst : sorted_teams [exWin1] = ["Alpha", "Bravo"] := by
    have hteams : (aggregate [exWin1]).teams = ["Alpha", "Bravo"] := rfl
    have hwA : (aggregate [exWin1]).wins "Alpha" = 1 := rfl
    have hwB : (aggregate [exWin1]).wins "Bravo" = 0 := rfl
    have hlA : (aggregate [exWin1]).loses "Alpha" = 0 := rfl
    have hlB : (aggregate [exWin1]).loses "Bravo" = 1 := rfl
    unfold sorted_teams rankingOf
    rw [hteams]
    simp [List.mergeSort, List.splitInTwo, List.splitAt_eq, List.merge,
      tupleLe, sort_key, hwA, hwB, hlA, hlB]
  have hlen : (sorted_teams [exWin1]).length = 2 := by
    rw [hst]
    rfl
  apply c1_ranking_order [exWin1] 0 1 (by omega) (by omega)
  refine Or.inl ?_
  simp only [hst, List.getElem_cons_zero, List.getElem_cons_succ]
  decide

/-- C2: processing a finished two-opponent record whose winner parses to
the integer 1 adds exactly one win to opponent 1 and exactly one loss to
opponent 2 and changes no other counter; symmetrically for winner 2.
The state hypothesis says only that unregistered names carry zero
counters, which holds for every reachable state. -/
theorem c2_conservation (s : AggState) (m : MatchRecord) (t1 t2 : Opponent)
    (hs : stateInv s) (hf : m.finishedVal.truthy = true)
    (hop : m.opponentsVal = [t1, t2]) :
    (m.winnerVal.toInt = some 1 →
      (processMatch s m).wins t1.resolvedName = s.wins t1.resolvedName + 1 ∧
      (processMatch s m).loses t2.resolvedName = s.loses t2.resolvedName + 1 ∧
      (∀ n, n ≠ t1.resolvedName → (processMatch s m).wins n = s.wins n) ∧
      (∀ n, n ≠ t2.resolvedName → (processMatch s m).loses n = s.loses n)) ∧
    (m.winnerVal.toInt = some 2 →
      (processMatch s m).wins t2.resolvedName = s.wins t2.resolvedName + 1 ∧
      (processMatch s m).loses t1.resolvedName = s.loses t1.resolvedName + 1 ∧
      (∀ n, n ≠ t2.resolvedName → (processMatch s m).wins n = s.wins n) ∧
      (∀ n, n ≠ t1.resolvedName → (processMatch s m).loses n = s.loses n)) := by
  constructor
  · intro hti
    have hw : m.winnerVal.truthy = true :=
      PyVal.truthy_of_toInt_ne_zero _ _ hti one_ne_zero
    have hc : consideredMatch m = true :=
      consideredMatch_true_of m t1 t2 hf hw hop
    refine ⟨?_, ?_, ?_, ?_⟩
    · rw [processMatch_wins s m hs]
      simp [winDelta, hc, hop, hti]
    · rw [processMatch_loses s m hs]
      simp [loseDelta, hc, hop, hti]
    · intro n hn
      rw [processMatch_wins s m hs]
      have hn2 : ¬ t1.resolvedName = n := fun h => hn h.symm
      simp [winDelta, hc, hop, hti, hn2]
    · intro n hn
      rw [processMatch_loses s m hs]
      have hn2 : ¬ t2.resolvedName = n := fun h => hn h.symm
      simp [loseDelta, hc, hop, hti, hn2]
  · intro hti
    have hw : m.winnerVal.truthy = true :=
      PyVal.truthy_of_toInt_ne_zero _ _ hti two_ne_zero
    have hc : consideredMatch m = true :=
      consideredMatch_true_of m t1 t2 hf hw hop
    refine ⟨?_, ?_, ?_, ?_⟩
    · rw [processMatch_wins s m hs]
      simp [winDelta, hc, hop, hti]
    · rw [processMatch_loses s m hs]
      simp [loseDelta, hc, hop, hti]
    · intro n hn
      rw [processMatch_wins s m hs]
      have hn2 : ¬ t2.resolvedName = n := fun h => hn h.symm
      simp [winDelta, hc, hop, hti, hn2]
    · intro n hn
      rw [processMatch_loses s m hs]
      have hn2 : ¬ t1.resolvedName = n := fun h => hn h.symm
      simp [loseDelta, hc, hop, hti, hn2]

/-- Witness for C2: processing "Alpha beats Bravo" from the initial state
gives Alpha one win, Bravo one loss, and leaves Charlie untouched. -/
theorem c2_conservation_witness :
    (processMatch initState exWin1).wins "Alpha"
        = initState.wins "Alpha" + 1 ∧
    (processMatch initState exWin1).loses "Bravo"
        = initState.loses "Bravo" + 1 ∧
    (processMatch initState exWin1).wins "Charlie"
        = initState.wins "Charlie" := by
  have h := (c2_conservation initState exWin1 oppA oppB initState_inv
    (by decide) rfl).1 rfl
  exact ⟨h.1, h.2.1, h.2.2.1 "Charlie" (by decide)⟩

/-- C3: a record that is unfinished, or whose winner field is absent or
the empty string, or that does not have exactly two opponents, is skipped
with the state completely unchanged: no counter is touched, no team is
registered, no diagnostic is emitted. -/
theorem c3_skip_silent (s : AggState) (m : MatchRecord)
    (h : m.finishedVal.truthy = false ∨ m.winner = none
      ∨ m.winner = some (PyVal.vstr "") ∨ m.opponentsVal.length ≠ 2) :
    processMatch s m = s := by
  apply processMatch_of_not_considered
  rcases h with h | h | h | h
  · simp [consideredMatch, h]
  · simp [consideredMatch, MatchRecord.winnerVal, h, PyVal.truthy]
  · simp [consideredMatch, MatchRecord.winnerVal, h, PyVal.truthy]
  · simp [consideredMatch, h]

/-- Witness for C3: an unfinished record leaves the initial state exactly
as it is. -/
theorem c3_skip_silent_witness : processMatch initState exUnfinished = initState :=
  c3_skip_silent initState exUnfinished (Or.inl (by decide))

/-- C5: the final tallies are invariant under any permutation of the
input records: both the wins function and the losses function agree. -/
theorem c5_permutation_invariant (ms1 ms2 : List MatchRecord)
    (h : List.Perm ms1 ms2) :
    (aggregate ms1).wins = (aggregate ms2).wins ∧
    (aggregate ms1).loses = (aggregate ms2).loses := by
  constructor
  · funext n
    rw [aggregate_wins, aggregate_wins]
    exact List.Perm.sum_eq (h.map fun m => winDelta m n)
  · funext n
    rw [aggregate_loses, aggregate_loses]
    exact List.Perm.sum_eq (h.map fun m => loseDelta m n)

/-- Witness for C5: swapping the two matches "Alpha beats Bravo" and
"Alpha beats Charlie" yields identical tallies. -/
theorem c5_permutation_invariant_witness :
    (aggregate [exWin1, exWin1AC]).wins = (aggregate [exWin1AC, exWin1]).wins ∧
    (aggregate [exWin1, exWin1AC]).loses
      = (aggregate [exWin1AC, exWin1]).loses :=
  c5_permutation_invariant [exWin1, exWin1AC] [exWin1AC, exWin1]
    (List.Perm.swap exWin1AC exWin1 [])

/-- C6: the names in the output ranking are exactly the names encountered
in the considered records (finished, truthy winner, exactly two
opponents), with no extras, no omissions, and no duplicates. -/
theorem c6_output_teams_exact (ms : List MatchRecord) :
    (∀ n : String, n ∈ sorted_teams ms ↔ n ∈ encounteredNames ms) ∧
    (sorted_teams ms).Nodup := by
  constructor
  · intro n
    rw [show sorted_teams ms = rankingOf (aggregate ms) from rfl,
      mem_rankingOf, mem_aggregate_teams]
  · exact rankingOf_nodup _ (aggregate_nodup ms)

/-- C4 counterexample: the record `exZeroWinner` is finished, has exactly
two opponents, and its winner field is present and parses to the integer 0
(not 1 or 2); the claim demands a diagnostic, but the script skips the
record silently at the `not winner` check (0 is falsy), emitting nothing
and leaving the state untouched. -/
theorem c4_counterexample :
    exZeroWinner.finished = some (PyVal.vbool true) ∧
    exZeroWinner.opponentsVal.length = 2 ∧
    exZeroWinner.winner = some (PyVal.vint 0) ∧
    exZeroWinner.winnerVal.toInt = some 0 ∧
    (0 : Int) ≠ 1 ∧ (0 : Int) ≠ 2 ∧
    (aggregate [exZeroWinner]).diags = [] ∧
    aggregate [exZeroWinner] = initState := by
  refine ⟨rfl, rfl, rfl, rfl, by decide, by decide, rfl, rfl⟩

/-- C4 (amended): for a finished two-opponent record whose winner field is
present AND truthy but not interpretable as 1 or 2 (the truthiness
condition is forced by the counterexample: a falsy winner such as the
integer 0 is silently skipped at step 1), no counter changes, exactly one
diagnostic built from the match identifier and the raw winner value is
appended, and the fold continues over the remaining records. -/
theorem c4_amended (s : AggState) (m : MatchRecord) (t1 t2 : Opponent)
    (hs : stateInv s) (hf : m.finishedVal.truthy = true)
    (hw : m.winnerVal.truthy = true) (hop : m.opponentsVal = [t1, t2])
    (hbad : ∀ k : Int, m.winnerVal.toInt = some k → k ≠ 1 ∧ k ≠ 2) :
    (∀ n, (processMatch s m).wins n = s.wins n) ∧
    (∀ n, (processMatch s m).loses n = s.loses n) ∧
    (m.winnerVal.toInt = none →
      (processMatch s m).diags
        = s.diags ++ [invalidWinnerMsg m.matchIdVal m.winnerVal]) ∧
    (∀ k : Int, m.winnerVal.toInt = some k →
      (processMatch s m).diags
        = s.diags ++ [unexpectedWinnerMsg m.matchIdVal m.winnerVal]) ∧
    (∀ pre post : List MatchRecord,
      aggregate (pre ++ m :: post)
        = List.foldl processMatch (processMatch (aggregate pre) m) post) := by
  have hc : consideredMatch m = true := consideredMatch_true_of m t1 t2 hf hw hop
  have hwd : ∀ n, winDelta m n = 0 := by
    intro n
    rcases hti : m.winnerVal.toInt with _ | k
    · simp [winDelta, hc, hop, hti]
    · obtain ⟨h1, h2⟩ := hbad k hti
      simp [winDelta, hc, hop, hti, h1, h2]
  have hld : ∀ n, loseDelta m n = 0 := by
    intro n
    rcases hti : m.winnerVal.toInt with _ | k
    · simp [loseDelta, hc, hop, hti]
    · obtain ⟨h1, h2⟩ := hbad k hti
      simp [loseDelta, hc, hop, hti, h1, h2]
  have hdiagreg : ([t1, t2].foldl registerTeam s).diags = s.diags :=
    regFold_diags [t1, t2] s
  refine ⟨?_, ?_, ?_, ?_, ?_⟩
  · intro n
    rw [processMatch_wins s m hs n, hwd n, Nat.add_zero]
  · intro n
    rw [processMatch_loses s m hs n, hld n, Nat.add_zero]
  · intro hti
    rw [processMatch_eq_considered s m t1 t2 hf hw hop]
    simp only [hti, hdiagreg]
  · intro k hti
    obtain ⟨h1, h2⟩ := hbad k hti
    rw [processMatch_eq_considered s m t1 t2 hf hw hop]
    simp only [hti, if_neg h1, if_neg h2, hdiagreg]
  · intro pre post
    simp [aggregate, List.foldl_append]

/-- Witness for C4 (amended): winner "3" on a finished Alpha-Bravo match
changes no counter and appends exactly the "Unexpected winner value"
diagnostic. -/
theorem c4_amended_witness :
    (processMatch initState exBad3).wins "Alpha" = initState.wins "Alpha" ∧
    (processMatch initState exBad3).diags
      = initState.diags
          ++ [unexpectedWinnerMsg exBad3.matchIdVal exBad3.winnerVal] := by
  have h := c4_amended initState exBad3 oppA oppB initState_inv
    (by decide) (by decide) rfl
    (by
      intro k hk
      have hk2 : some (3 : Int) = some k :=
        (show exBad3.winnerVal.toInt = some 3 from rfl).symm.trans hk
      have hk3 : (3 : Int) = k := Option.some.inj hk2
      subst hk3
      exact ⟨by decide, by decide⟩)
  exact ⟨h.1 "Alpha", h.2.2.2.1 3 rfl⟩

/-- C7 counterexample: a finished match whose two opponents both resolve
to the sentinel "Unknown" yields wins + losses = 2 for "Unknown", although
"Unknown" participated in only 1 finished two-opponent match, violating
the claimed bound. -/
theorem c7_counterexample :
    (aggregate [exUnknownPair]).wins "Unknown"
        + (aggregate [exUnknownPair]).loses "Unknown" = 2 ∧
    participCount [exUnknownPair] "Unknown" = 1 ∧
    ¬ ((aggregate [exUnknownPair]).wins "Unknown"
        + (aggregate [exUnknownPair]).loses "Unknown"
        ≤ participCount [exUnknownPair] "Unknown") := by
  refine ⟨rfl, rfl, by decide⟩

/-- C7 (amended): at every point of the run (after any prefix of the
input), wins[name] + losses[name] never exceeds the number of opponent
SLOTS of finished two-opponent input records that resolve to the name
(participation counted with multiplicity, as forced by the counterexample
where one match contributes both a win and a loss to "Unknown"), and a
name not yet registered has both counters zero. -/
theorem c7_amended (ms : List MatchRecord) (k : Nat) (n : String) :
    (aggregate (ms.take k)).wins n + (aggregate (ms.take k)).loses n
        ≤ participSlots ms n ∧
    (n ∉ (aggregate (ms.take k)).teams →
      (aggregate (ms.take k)).wins n = 0 ∧
      (aggregate (ms.take k)).loses n = 0) := by
  constructor
  · rw [aggregate_wins, aggregate_loses]
    calc winsTotal (ms.take k) n + losesTotal (ms.take k) n
        ≤ participSlots (ms.take k) n := totals_le_participSlots _ n
      _ ≤ participSlots ms n := by
          conv_rhs => rw [← List.take_append_drop k ms]
          rw [participSlots_append]
          exact Nat.le_add_right _ _
  · intro hn
    exact aggregate_inv (ms.take k) n hn

/-- Witness for C7 (amended): after the single match "Alpha beats Bravo",
the unregistered name "Zed" has zero counters and Alpha's total respects
the slot bound. -/
theorem c7_amended_witness :
    (aggregate ([exWin1].take 1)).wins "Zed" = 0 ∧
    (aggregate ([exWin1].take 1)).loses "Zed" = 0 ∧
    (aggregate ([exWin1].take 1)).wins "Alpha"
        + (aggregate ([exWin1].take 1)).loses "Alpha"
      ≤ participSlots [exWin1] "Alpha" := by
  have h1 := c7_amended [exWin1] 1 "Zed"
  have h2 := c7_amended [exWin1] 1 "Alpha"
  exact ⟨(h1.2 (by decide)).1, (h1.2 (by decide)).2, h2.1⟩

/-- C8: one execution of the script reassigns the tally containers before
the loop (lines 53-55), so two runs over the same input - regardless of
any leftover state, including the state left by a first run - produce
identical wins, losses, teams and ranking, all equal to the pure
`aggregate`/`sorted_teams` of the input. -/
theorem c8_deterministic_reruns (g1 g2 : AggState) (ms : List MatchRecord) :
    (runScript g1 ms).wins = (runScript g2 ms).wins ∧
    (runScript g1 ms).loses = (runScript g2 ms).loses ∧
    (runScript g1 ms).teams = (runScript g2 ms).teams ∧
    rankingOf (runScript g1 ms) = rankingOf (runScript g2 ms) ∧
    (runScript g1 ms).wins = (aggregate ms).wins ∧
    (runScript g1 ms).loses = (aggregate ms).loses ∧
    (runScript g1 ms).teams = (aggregate ms).teams ∧
    rankingOf (runScript g1 ms) = sorted_teams ms := by
  obtain ⟨cw1, cl1, ct1⟩ :=
    foldPM_congr ms (resetState g1) initState rfl rfl rfl
  obtain ⟨cw2, cl2, ct2⟩ :=
    foldPM_congr ms (resetState g2) initState rfl rfl rfl
  have hw12 : (runScript g1 ms).wins = (runScript g2 ms).wins :=
    cw1.trans cw2.symm
  have hl12 : (runScript g1 ms).loses = (runScript g2 ms).loses :=
    cl1.trans cl2.symm
  have ht12 : (runScript g1 ms).teams = (runScript g2 ms).teams :=
    ct1.trans ct2.symm
  exact ⟨hw12, hl12, ht12,
    rankingOf_congr _ _ hw12 hl12 ht12,
    cw1, cl1, ct1,
    rankingOf_congr _ _ cw1 cl1 ct1⟩

/-- C9 counterexample: the record `exZeroWinner` is finished with two
opponents and its winner parses to the integer 0 (not 1 or 2), yet neither
opponent is registered and the ranking is empty, because the falsy winner
value 0 makes the script skip the record BEFORE the registration step. -/
theorem c9_counterexample :
    exZeroWinner.finishedVal.truthy = true ∧
    exZeroWinner.opponentsVal = [oppA, oppB] ∧
    exZeroWinner.winnerVal.toInt = some 0 ∧
    (0 : Int) ≠ 1 ∧ (0 : Int) ≠ 2 ∧
    (aggregate [exZeroWinner]).teams = [] ∧
    sorted_teams [exZeroWinner] = [] := by
  refine ⟨rfl, rfl, rfl, by decide, by decide, rfl, ?_⟩
  have hteams : (aggregate [exZeroWinner]).teams = [] := rfl
  unfold sorted_teams rankingOf
  rw [hteams]
  simp

/-- C9 (amended): for a finished two-opponent record whose winner field is
truthy (the counterexample forces this restriction: a falsy winner such as
the integer 0 is skipped before registration) but fails to parse or parses
to an integer other than 1 and 2, both opponents are registered with zero
counters (if previously unseen) and appear in the final ranking, because
registration precedes winner validation. -/
theorem c9_amended (pre post : List MatchRecord) (m : MatchRecord)
    (t1 t2 : Opponent)
    (hf : m.finishedVal.truthy = true) (hw : m.winnerVal.truthy = true)
    (hop : m.opponentsVal = [t1, t2])
    (hbad : ∀ k : Int, m.winnerVal.toInt = some k → k ≠ 1 ∧ k ≠ 2) :
    t1.resolvedName ∈ sorted_teams (pre ++ m :: post) ∧
    t2.resolvedName ∈ sorted_teams (pre ++ m :: post) ∧
    t1.resolvedName ∈ (processMatch (aggregate pre) m).teams ∧
    t2.resolvedName ∈ (processMatch (aggregate pre) m).teams ∧
    (t1.resolvedName ∉ (aggregate pre).teams →
      (processMatch (aggregate pre) m).wins t1.resolvedName = 0 ∧
      (processMatch (aggregate pre) m).loses t1.resolvedName = 0) ∧
    (t2.resolvedName ∉ (aggregate pre).teams →
      (processMatch (aggregate pre) m).wins t2.resolvedName = 0 ∧
      (processMatch (aggregate pre) m).loses t2.resolvedName = 0) := by
  have hc : consideredMatch m = true := consideredMatch_true_of m t1 t2 hf hw hop
  have hnames : ∀ u : Opponent, u ∈ [t1, t2] →
      u.resolvedName ∈ oppNames m := by
    intro u hu
    simp only [oppNames, hop]
    exact List.mem_map_of_mem Opponent.resolvedName hu
  have hmemSorted : ∀ u : Opponent, u ∈ [t1, t2] →
      u.resolvedName ∈ sorted_teams (pre ++ m :: post) := by
    intro u hu
    rw [show sorted_teams (pre ++ m :: post)
        = rankingOf (aggregate (pre ++ m :: post)) from rfl,
      mem_rankingOf, mem_aggregate_teams]
    simp only [encounteredNames, List.flatMap_append, List.flatMap_cons,
      List.mem_append]
    right
    left
    rw [if_pos hc]
    exact hnames u hu
  have hmemPm : ∀ u : Opponent, u ∈ [t1, t2] →
      u.resolvedName ∈ (processMatch (aggregate pre) m).teams := by
    intro u hu
    rw [mem_processMatch_teams]
    exact Or.inr ⟨hc, hnames u hu⟩
  have hzero : ∀ u : Opponent, u.resolvedName ∉ (aggregate pre).teams →
      (processMatch (aggregate pre) m).wins u.resolvedName = 0 ∧
      (processMatch (aggregate pre) m).loses u.resolvedName = 0 := by
    intro u hu
    have hinv := aggregate_inv pre
    obtain ⟨hw0, hl0⟩ := hinv u.resolvedName hu
    have hwd : winDelta m u.resolvedName = 0 := by
      rcases hti : m.winnerVal.toInt with _ | kk
      · simp [winDelta, hc, hop, hti]
      · obtain ⟨h1, h2⟩ := hbad kk hti
        simp [winDelta, hc, hop, hti, h1, h2]
    have hld : loseDelta m u.resolvedName = 0 := by
      rcases hti : m.winnerVal.toInt with _ | kk
      · simp [loseDelta, hc, hop, hti]
      · obtain ⟨h1, h2⟩ := hbad kk hti
        simp [loseDelta, hc, hop, hti, h1, h2]
    rw [processMatch_wins _ m hinv, processMatch_loses _ m hinv, hwd, hld,
      hw0, hl0]
    exact ⟨rfl, rfl⟩
  exact ⟨hmemSorted t1 (by simp), hmemSorted t2 (by simp),
    hmemPm t1 (by simp), hmemPm t2 (by simp),
    hzero t1, hzero t2⟩

/-- Witness for C9 (amended): with the single record carrying the
non-numeric winner "abc", both "Alpha" and "Bravo" appear in the ranking,
registered with zero counters. -/
theorem c9_amended_witness :
    "Alpha" ∈ sorted_teams [exBadStr] ∧
    "Bravo" ∈ sorted_teams [exBadStr] ∧
    (processMatch (aggregate []) exBadStr).wins "Alpha" = 0 ∧
    (processMatch (aggregate []) exBadStr).loses "Bravo" = 0 := by
  have h := c9_amended [] [] exBadStr oppA oppB (by decide) (by decide) rfl
    (by
      intro k hk
      have hk2 : (none : Option Int) = some k :=
        (show exBadStr.winnerVal.toInt = none from rfl).symm.trans hk
      exact Option.noConfusion hk2)
  exact ⟨h.1, h.2.1, (h.2.2.2.2.1 (by decide)).1, (h.2.2.2.2.2 (by decide)).2⟩

/-- C10: teams with identical wins and identical losses appear in the
ranking in first-encounter order: if a name was registered at position i
of `teams` and a tied name at a later position j, then the first occupies
an earlier position of the sorted output than the second (the sort is a
stable merge sort and registration appends); the output has no
duplicates, so these positions are unique and the ranking of a fixed
input is fully deterministic. -/
theorem c10_tie_first_encounter (ms : List MatchRecord) (i j : Nat)
    (hi : i < (aggregate ms).teams.length)
    (hj : j < (aggregate ms).teams.length)
    (hij : i < j)
    (hw : (aggregate ms).wins ((aggregate ms).teams.get ⟨i, hi⟩)
        = (aggregate ms).wins ((aggregate ms).teams.get ⟨j, hj⟩))
    (hl : (aggregate ms).loses ((aggregate ms).teams.get ⟨i, hi⟩)
        = (aggregate ms).loses ((aggregate ms).teams.get ⟨j, hj⟩)) :
    (∃ (p q : Nat) (hp : p < (sorted_teams ms).length)
        (hq : q < (sorted_teams ms).length),
      p < q ∧
      (sorted_teams ms).get ⟨p, hp⟩ = (aggregate ms).teams.get ⟨i, hi⟩ ∧
      (sorted_teams ms).get ⟨q, hq⟩ = (aggregate ms).teams.get ⟨j, hj⟩) ∧
    (sorted_teams ms).Nodup := by
  have hle : tupleLe
      (sort_key (aggregate ms) ((aggregate ms).teams.get ⟨i, hi⟩))
      (sort_key (aggregate ms) ((aggregate ms).teams.get ⟨j, hj⟩)) = true := by
    simp only [tupleLe, sort_key, Bool.or_eq_true, Bool.and_eq_true,
      decide_eq_true_eq, List.get_eq_getElem] at hw hl ⊢
    omega
  have hsub : List.Sublist
      [(aggregate ms).teams.get ⟨i, hi⟩, (aggregate ms).teams.get ⟨j, hj⟩]
      (aggregate ms).teams :=
    pair_sublist_of_lt _ i j hij hj hi
  have hsorted : List.Sublist
      [(aggregate ms).teams.get ⟨i, hi⟩, (aggregate ms).teams.get ⟨j, hj⟩]
      (sorted_teams ms) :=
    List.pair_sublist_mergeSort
      (fun a b c h1 h2 => tupleLe_trans _ _ _ h1 h2)
      (fun a b => tupleLe_total _ _) hle hsub
  exact ⟨exists_indices_of_pair_sublist hsorted,
    rankingOf_nodup _ (aggregate_nodup ms)⟩

/-- Witness for C10: after "Alpha beats Bravo" then "Alpha beats Charlie",
Bravo and Charlie are tied 0-1 and appear in the ranking in registration
order (Bravo first). -/
theorem c10_tie_first_encounter_witness :
    (∃ (p q : Nat) (hp : p < (sorted_teams [exWin1, exWin1AC]).length)
        (hq : q < (sorted_teams [exWin1, exWin1AC]).length),
      p < q ∧
      (sorted_teams [exWin1, exWin1AC]).get ⟨p, hp⟩
        = (aggregate [exWin1, exWin1AC]).teams.get ⟨1, by decide⟩ ∧
      (sorted_teams [exWin1, exWin1AC]).get ⟨q, hq⟩
        = (aggregate [exWin1, exWin1AC]).teams.get ⟨2, by decide⟩) ∧
    (sorted_teams [exWin1, exWin1AC]).Nodup :=
  c10_tie_first_encounter [exWin1, exWin1AC] 1 2 (by decide) (by decide)
    (by decide) (by decide) (by decide)
